import Mathlib

/-!
Verification of the uniland in-memory keyword search engine
(`src/uniland/utils/search.py`) and permission/session cache
(`src/uniland/utils/usercache.py`).

Python strings are modelled as `List Char` (a Python `str` is a sequence of
Unicode code points), Python dicts as association lists, Python sets of
`Record` objects as duplicate-free lists of allocation tags: the engine
stores `Record` objects both in `subs` and inside the keyword sets, shared
by reference, so the model keeps a heap `tag -> Record` and lets `subs` and
the keyword sets hold tags.  A primitive operation that can raise (Python
`dict[k]`, `dict.pop`, `set.remove`) is modelled on the error path by an
`Option` result carrying the state at the moment the exception escapes.
-/

set_option maxHeartbeats 1000000

namespace Uniland

/-- Python strings: sequences of Unicode code points. -/
abbrev Text := List Char

/-! ## Association lists (Python dicts) -/

/-- Dict read `d.get(k)`: the first entry whose key matches. -/
def alookup {α β : Type} [DecidableEq α] (k : α) : List (α × β) → Option β
  | [] => none
  | p :: l => if p.1 = k then some p.2 else alookup k l

/-- Dict write `d[k] = v`: replace the entry for `k` in place, else append. -/
def aset {α β : Type} [DecidableEq α] (k : α) (v : β) : List (α × β) → List (α × β)
  | [] => [(k, v)]
  | p :: l => if p.1 = k then (k, v) :: l else p :: aset k v l

/-- Dict delete `del d[k]` (on a present key): drop the first entry for `k`. -/
def aerase {α β : Type} [DecidableEq α] (k : α) : List (α × β) → List (α × β)
  | [] => []
  | p :: l => if p.1 = k then l else p :: aerase k l

/-! ## Python string primitives -/

/-- Helper for `pysplit`, accumulating the current word reversed. -/
def pysplitAux : List Char → List Char → List Text
  | [], acc => if acc = [] then [] else [acc.reverse]
  | c :: cs, acc =>
      if c.isWhitespace then
        if acc = [] then pysplitAux cs [] else acc.reverse :: pysplitAux cs []
      else pysplitAux cs (c :: acc)

/-- Python `s.split()` with no argument: split on runs of whitespace,
discarding empty pieces. -/
def pysplit (t : Text) : List Text := pysplitAux t []

/-- Python `s.strip()`: drop leading and trailing whitespace. -/
def pystrip (t : Text) : Text :=
  ((t.dropWhile Char.isWhitespace).reverse.dropWhile Char.isWhitespace).reverse

/-- Python `s.lower()` (restricted to the ASCII range, which is all the
claims exercise). -/
def pylower (t : Text) : Text := t.map Char.toLower

/-- Python `s.replace(k, v)` for single-character `k`, `v`: replace every
occurrence of the character `k` by `v`. -/
def replaceChar (k v : Char) (t : Text) : Text :=
  t.map (fun c => if c = k then v else c)

/-! ## SearchEngine (src/uniland/utils/search.py) -/

/-- The `Record` value class of search.py: identity, search text, kind tag,
like counter. -/
structure Record where
  id : Int
  search_text : Text
  type : Text
  likes : Int
deriving DecidableEq

/-- The `alts` fold table of `SearchEngine`, in Python iteration
(= insertion) order. -/
def alts : List (Char × Char) :=
  [('ي', 'ی'), ('ك', 'ک'), ('ة', 'ه'), ('أ', 'ا'), ('إ', 'ا'), ('ئ', 'ی')]

/-- `SearchEngine.__clean_text`: apply each replacement of `alts` in order,
then strip. -/
def clean_text (t : Text) : Text :=
  pystrip (alts.foldl (fun acc kv => replaceChar kv.1 kv.2 acc) t)

/-- The combined character fold of the `alts` table (the spec's fold table):
each Arabic look-alike goes to its canonical Persian form, every other
character is kept. -/
def foldChar (c : Char) : Char :=
  if c = 'ي' then 'ی' else if c = 'ك' then 'ک' else if c = 'ة' then 'ه'
  else if c = 'أ' then 'ا' else if c = 'إ' then 'ا' else if c = 'ئ' then 'ی' else c

/-- The state of a `SearchEngine`.  `heap` maps allocation tags to `Record`
objects (Python object identity), `subs` maps identities to the tag of their
current record, `keywords` maps each token to the set of tags of the records
holding it (Python keeps the `Record` objects themselves in those sets; tags
model the object references).  `nextTag` is the next fresh tag.  The heap is
monotone: entries are never deleted, mirroring objects that merely become
garbage. -/
structure Engine where
  nextTag : Nat
  heap : List (Nat × Record)
  subs : List (Int × Nat)
  keywords : List (Text × List Nat)
deriving DecidableEq

/-- `SearchEngine()`: empty maps. -/
def emptyEngine : Engine := ⟨0, [], [], []⟩

/-- `SearchEngine.index_record`: clean the text, build a fresh `Record`,
overwrite the id entry, and add the record into the token set of every token
of the cleaned text (creating missing sets; a duplicate token adds
idempotently).  Note it does NOT retract the token memberships of a previous
record stored under the same id. -/
def index_record (id : Int) (search_text : Text) (sub_type : Text) (likes : Int)
    (e : Engine) : Engine :=
  let st := clean_text search_text
  let r : Record := ⟨id, st, pystrip sub_type, likes⟩
  let tag := e.nextTag
  let kws := (pysplit st).foldl (fun kws w =>
    match alookup w kws with
    | none => aset w [tag] kws
    | some s => aset w (if tag ∈ s then s else s ++ [tag]) kws) e.keywords
  { nextTag := tag + 1
    heap := (tag, r) :: e.heap
    subs := aset id tag e.subs
    keywords := kws }

/-- The token-retraction loop of `SearchEngine.remove_record`.  For each
token in order: skip it when it is not a key; otherwise Python runs
`set.remove`, which raises `KeyError` when the record is not in the set —
modelled by the `false` flag together with the keyword state at the moment
the exception escapes.  An emptied set has its key deleted. -/
def removeLoop (tag : Nat) : List Text → List (Text × List Nat) →
    Bool × List (Text × List Nat)
  | [], kws => (true, kws)
  | w :: ws, kws =>
      match alookup w kws with
      | none => removeLoop tag ws kws
      | some s =>
          if tag ∈ s then
            let s' := s.erase tag
            if s' = [] then removeLoop tag ws (aerase w kws)
            else removeLoop tag ws (aset w s' kws)
          else (false, kws)

/-- `SearchEngine.remove_record`: pop the id entry (raising `KeyError` when
absent, with nothing mutated), then retract the record from the token set of
every token of its stored search text.  `none` in the first component
models an escaping exception; the second component is the state left
behind. -/
def remove_record (id : Int) (e : Engine) : Option Record × Engine :=
  match alookup id e.subs with
  | none => (none, e)
  | some tag =>
      let subs' := aerase id e.subs
      match alookup tag e.heap with
      | none => (none, { e with subs := subs' })
      | some r =>
          match removeLoop tag (pysplit r.search_text) e.keywords with
          | (true, kws') => (some r, { e with subs := subs', keywords := kws' })
          | (false, kws') => (none, { e with subs := subs', keywords := kws' })

/-- `SearchEngine.update_record`: remove the record (propagating its
`KeyError` when the id is absent), overlay each provided field on the
retained old value (`-1` is the "not provided" sentinel for `likes`, being
the default argument), and re-index.  The popped record's own `id` field is
what is passed back to `index_record`. -/
def update_record (id : Int) (search_text : Option Text) (sub_type : Option Text)
    (likes : Int) (e : Engine) : Option Unit × Engine :=
  match remove_record id e with
  | (none, e') => (none, e')
  | (some r, e') =>
      let st := match search_text with | none => r.search_text | some s => s
      let ty := match sub_type with | none => r.type | some s => s
      let lk := if likes = -1 then r.likes else likes
      (some (), index_record r.id st ty lk e')

/-- `SearchEngine.increase_likes`: `self.subs[id]` (raising `KeyError` when
absent), then `record.likes += 1` in place on the shared object. -/
def increase_likes (id : Int) (e : Engine) : Option Unit × Engine :=
  match alookup id e.subs with
  | none => (none, e)
  | some tag =>
      match alookup tag e.heap with
      | none => (none, e)
      | some r => (some (), { e with heap := aset tag { r with likes := r.likes + 1 } e.heap })

/-- `SearchEngine.decrease_likes`: as `increase_likes` with `-= 1`; no floor
is applied. -/
def decrease_likes (id : Int) (e : Engine) : Option Unit × Engine :=
  match alookup id e.subs with
  | none => (none, e)
  | some tag =>
      match alookup tag e.heap with
      | none => (none, e)
      | some r => (some (), { e with heap := aset tag { r with likes := r.likes - 1 } e.heap })

/-- The accumulation loop of `SearchEngine.search`: `none` models
`first_flag = True` (no set assigned yet).  A token that is not a key is
skipped entirely; a first indexed token seeds the result with its set; every
later indexed token intersects. -/
def searchLoop (e : Engine) : List Text → Option (List Nat) → Option (List Nat)
  | [], acc => acc
  | w :: ws, acc =>
      match alookup w e.keywords with
      | none => searchLoop e ws acc
      | some s =>
          match acc with
          | none => searchLoop e ws (some s)
          | some r => searchLoop e ws (some (r.filter (fun t => t ∈ s)))

/-- The set of record tags produced by `SearchEngine.search` on a query:
clean, tokenize, and run the intersection loop; with the flag never cleared
the result is the empty set. -/
def searchTags (q : Text) (e : Engine) : List Nat :=
  (searchLoop e (pysplit (clean_text q)) none).getD []

/-- The records returned by `SearchEngine.search`.  The source returns them
sorted by `likes` descending (with ties in unspecified set-iteration order);
every claim below concerns only membership and emptiness, which the sort
preserves, so the model returns the unsorted list. -/
def search (q : Text) (e : Engine) : List Record :=
  (searchTags q e).filterMap (fun t => alookup t e.heap)

/-- The identities of the records returned by `search`. -/
def searchIds (q : Text) (e : Engine) : List Int :=
  (search q e).map Record.id

/-! ## Observation helpers and the consistency invariant -/

/-- The token set stored under `w`, as a tag list (empty when `w` is not a
key). -/
def lookupSet (w : Text) (kws : List (Text × List Nat)) : List Nat :=
  (alookup w kws).getD []

/-- The tokens of the record a tag points to (empty for a dangling tag). -/
def tagTokens (e : Engine) (t : Nat) : List Text :=
  match alookup t e.heap with
  | some r => pysplit r.search_text
  | none => []

/-- Whether some record with identity `i` sits in the keyword set of token
`w` — "identity `i` is reachable from the keyword index under `w`". -/
def idUnderToken (e : Engine) (w : Text) (i : Int) : Bool :=
  (lookupSet w e.keywords).any (fun t => decide ((alookup t e.heap).map Record.id = some i))

/-- Whether no keyword set of the engine reaches a record with identity
`i`. -/
def noTokenHasId (e : Engine) (i : Int) : Bool :=
  e.keywords.all (fun kw =>
    kw.2.all (fun t => !(decide ((alookup t e.heap).map Record.id = some i))))

/-- Whether `w` is a whitespace-separated token of the text `txt`. -/
def memToken (w : Text) (txt : Text) : Bool :=
  (pysplit txt).any (fun x => decide (x = w))

/-- The consistency invariant of an engine state: the maps are genuine
finite maps, every keyword set is a non-empty duplicate-free set of tags of
live records, the record stored for an identity carries that identity, and a
live record sits in the set of a token exactly when the token occurs in its
search text.  `index_record` on a fresh id preserves it; re-indexing an
existing id breaks it (see the C2 theorem). -/
def Consistent (e : Engine) : Prop :=
  (e.subs.map Prod.fst).Nodup ∧
  (e.subs.map Prod.snd).Nodup ∧
  (e.keywords.map Prod.fst).Nodup ∧
  (e.heap.map Prod.fst).Nodup ∧
  (∀ p ∈ e.subs, (alookup p.2 e.heap).map Record.id = some p.1) ∧
  (∀ kw ∈ e.keywords, kw.2 ≠ [] ∧ kw.2.Nodup) ∧
  (∀ kw ∈ e.keywords, ∀ t ∈ kw.2, ∃ p ∈ e.subs, p.2 = t) ∧
  (∀ p ∈ e.subs, ∀ w ∈ tagTokens e p.2, p.2 ∈ lookupSet w e.keywords) ∧
  (∀ kw ∈ e.keywords, ∀ t ∈ kw.2, kw.1 ∈ tagTokens e t)

instance (e : Engine) : Decidable (Consistent e) := by
  unfold Consistent; infer_instance

/-! ## UserCache (src/uniland/utils/usercache.py) -/

/-- A Python permission argument: a name string or an integer ordinal
(the two shapes the code compares and stores). -/
inductive PermVal where
  | name (s : Text)
  | num (n : Int)
deriving DecidableEq

/-- The `permission_values` table shared by usercache.py. -/
def permission_values : List (Text × Int) :=
  [("Admin".toList, 3), ("Editor".toList, 2), ("Ordinary".toList, 1)]

/-- `UserRecord.update_permission`: a recognized name is replaced by its
ordinal; anything else is stored as given. -/
def resolvePerm (p : PermVal) : PermVal :=
  match p with
  | .name s =>
      match alookup s permission_values with
      | some n => .num n
      | none => .name s
  | .num n => .num n

/-- The `UserRecord` class: identity, stored permission, normalized last
step. -/
structure UserRecord where
  user_id : Int
  permission : PermVal
  last_step : Text
deriving DecidableEq

/-- `UserRecord.__init__`: resolve the permission and normalize the step
(`last_step.strip().lower() if last_step else ''`). -/
def mkUserRecord (user_id : Int) (permission : PermVal) (last_step : Text) : UserRecord :=
  ⟨user_id, resolvePerm permission,
   if last_step = [] then [] else pylower (pystrip last_step)⟩

/-- `UserRecord.has_permission`: `min <= permission <= max` with Python
comparisons; a stored non-integer permission makes `>=` raise `TypeError`,
modelled as `none`. -/
def UserRecord.has_permission (u : UserRecord) (min_permission max_permission : Int) :
    Option Bool :=
  match u.permission with
  | .num n => some (decide (min_permission ≤ n ∧ n ≤ max_permission))
  | .name _ => none

/-- The `UserCache` state: dict from user id to `UserRecord`. -/
structure UserCache where
  users : List (Int × UserRecord)
deriving DecidableEq

/-- `UserCache()`: empty dict. -/
def emptyCache : UserCache := ⟨[]⟩

/-- `UserCache.add_user`: build a `UserRecord` and overwrite the entry. -/
def add_user (user_id : Int) (permission : PermVal) (last_step : Text)
    (c : UserCache) : UserCache :=
  ⟨aset user_id (mkUserRecord user_id permission last_step) c.users⟩

/-- `UserCache.update_user_permission`: silently return on an unknown id,
else re-resolve the stored permission. -/
def update_user_permission (user_id : Int) (permission : PermVal)
    (c : UserCache) : UserCache :=
  match alookup user_id c.users with
  | none => c
  | some u => ⟨aset user_id { u with permission := resolvePerm permission } c.users⟩

/-- `UserCache.update_user_step`: silently return on an unknown id, else
store the normalized step. -/
def update_user_step (user_id : Int) (last_step : Text) (c : UserCache) : UserCache :=
  match alookup user_id c.users with
  | none => c
  | some u => ⟨aset user_id { u with last_step := pylower (pystrip last_step) } c.users⟩

/-- `UserCache.has_permission`: `False` for an unknown id, else delegate to
the record. -/
def UserCache.has_permission (user_id min_permission max_permission : Int)
    (c : UserCache) : Option Bool :=
  match alookup user_id c.users with
  | none => some false
  | some u => u.has_permission min_permission max_permission

/-! ## Concrete example states used by witnesses and counterexamples -/

/-- A one-record engine: `index_record(1, "a", "t", 0)` on a fresh engine. -/
def egA : Engine := index_record 1 "a".toList "t".toList 0 emptyEngine

/-- The record stored in `egA`. -/
def recA : Record := ⟨1, "a".toList, "t".toList, 0⟩

/-- `egA` after its record is removed (the heap keeps the dead object). -/
def egARemoved : Engine := ⟨1, [(0, recA)], [], []⟩

/-- The same identity indexed twice with different texts:
`index_record(1, "a", "t", 0); index_record(1, "b", "t", 0)`. -/
def e2bug : Engine :=
  index_record 1 "b".toList "t".toList 0 (index_record 1 "a".toList "t".toList 0 emptyEngine)

/-- A record whose text repeats a token shared with another record:
`index_record(1, "a a b", "t", 0); index_record(2, "a", "t", 0)`. -/
def e4crash : Engine :=
  index_record 2 "a".toList "t".toList 0 (index_record 1 "a a b".toList "t".toList 0 emptyEngine)

/-- `add_user(10, 0, "")`: a registered user stored with raw ordinal 0. -/
def cacheZero : UserCache := add_user 10 (PermVal.num 0) [] emptyCache

/-- `add_user(10, "Editor", "await_title")`. -/
def cacheEd : UserCache :=
  add_user 10 (PermVal.name "Editor".toList) "await_title".toList emptyCache

/-- The stored record of `cacheEd`. -/
def edRec : UserRecord := ⟨10, PermVal.num 2, "await_title".toList⟩

/-! ## Association list lemmas -/

theorem alookup_aset_self {α β : Type} [DecidableEq α] (k : α) (v : β)
    (l : List (α × β)) : alookup k (aset k v l) = some v := by
  induction l with
  | nil => simp [aset, alookup]
  | cons p l ih =>
      by_cases h : p.1 = k
      · simp [aset, h, alookup]
      · simp [aset, h, alookup, ih]

theorem alookup_aset_ne {α β : Type} [DecidableEq α] {k k' : α} (v : β)
    (l : List (α × β)) (h : k' ≠ k) : alookup k' (aset k v l) = alookup k' l := by
  have hk : ¬ k = k' := fun hk => h hk.symm
  induction l with
  | nil => simp [aset, alookup, hk]
  | cons p l ih =>
      obtain ⟨a, b⟩ := p
      by_cases hp : a = k
      · subst hp
        simp [aset, alookup, hk]
      · simp [aset, alookup, hp, ih]

theorem alookup_aerase_ne {α β : Type} [DecidableEq α] {k k' : α}
    (l : List (α × β)) (h : k' ≠ k) : alookup k' (aerase k l) = alookup k' l := by
  induction l with
  | nil => simp [aerase]
  | cons p l ih =>
      obtain ⟨a, b⟩ := p
      by_cases hp : a = k
      · subst hp
        have ha : ¬ a = k' := fun hk => h hk.symm
        simp [aerase, alookup, ha]
      · simp [aerase, alookup, hp, ih]

theorem alookup_eq_none_of_not_mem_keys {α β : Type} [DecidableEq α] {k : α}
    {l : List (α × β)} (h : k ∉ l.map Prod.fst) : alookup k l = none := by
  induction l with
  | nil => rfl
  | cons p l ih =>
      obtain ⟨a, b⟩ := p
      simp only [List.map_cons, List.mem_cons] at h
      push_neg at h
      have ha : ¬ a = k := fun hk => h.1 hk.symm
      simp [alookup, ha, ih h.2]

theorem alookup_aerase_self {α β : Type} [DecidableEq α] {k : α}
    {l : List (α × β)} (h : (l.map Prod.fst).Nodup) : alookup k (aerase k l) = none := by
  induction l with
  | nil => rfl
  | cons p l ih =>
      obtain ⟨a, b⟩ := p
      simp only [List.map_cons, List.nodup_cons] at h
      by_cases hp : a = k
      · subst hp
        simp only [aerase, if_pos rfl]
        exact alookup_eq_none_of_not_mem_keys h.1
      · simp [aerase, alookup, hp, ih h.2]

theorem mem_of_alookup_eq_some {α β : Type} [DecidableEq α] {k : α} {v : β}
    {l : List (α × β)} (h : alookup k l = some v) : (k, v) ∈ l := by
  induction l with
  | nil => simp [alookup] at h
  | cons p l ih =>
      obtain ⟨a, b⟩ := p
      by_cases hp : a = k
      · simp only [alookup, if_pos hp] at h
        injection h with h
        subst h
        exact List.mem_cons.mpr (Or.inl (by rw [Prod.mk.injEq]; exact ⟨hp.symm, rfl⟩))
      · simp only [alookup, if_neg hp] at h
        exact List.mem_cons_of_mem _ (ih h)

theorem alookup_eq_some_of_mem {α β : Type} [DecidableEq α] {k : α} {v : β}
    {l : List (α × β)} (hn : (l.map Prod.fst).Nodup) (h : (k, v) ∈ l) :
    alookup k l = some v := by
  induction l with
  | nil => simp at h
  | cons p l ih =>
      obtain ⟨a, b⟩ := p
      simp only [List.map_cons, List.nodup_cons] at hn
      rcases List.mem_cons.mp h with h1 | h1
      · rw [Prod.mk.injEq] at h1
        simp [alookup, h1.1, h1.2]
      · have hk : k ∈ l.map Prod.fst := List.mem_map.mpr ⟨(k, v), h1, rfl⟩
        have ha : ¬ a = k := fun hp => hn.1 (hp ▸ hk)
        simp [alookup, ha, ih hn.2 h1]

theorem aerase_sublist {α β : Type} [DecidableEq α] (k : α) (l : List (α × β)) :
    List.Sublist (aerase k l) l := by
  induction l with
  | nil => simp [aerase]
  | cons p l ih =>
      by_cases hp : p.1 = k
      · simp only [aerase, if_pos hp]
        exact List.sublist_cons_self p l
      · simp only [aerase, if_neg hp]
        exact List.Sublist.cons₂ p ih

theorem keys_aerase_nodup {α β : Type} [DecidableEq α] (k : α) {l : List (α × β)}
    (h : (l.map Prod.fst).Nodup) : ((aerase k l).map Prod.fst).Nodup :=
  h.sublist ((aerase_sublist k l).map Prod.fst)

theorem mem_keys_aset {α β : Type} [DecidableEq α] {k k' : α} {v : β}
    {l : List (α × β)} : k' ∈ (aset k v l).map Prod.fst ↔ k' = k ∨ k' ∈ l.map Prod.fst := by
  induction l with
  | nil => simp [aset]
  | cons p l ih =>
      obtain ⟨a, b⟩ := p
      by_cases hp : a = k
      · simp only [aset, if_pos hp, List.map_cons, List.mem_cons]
        subst hp
        tauto
      · simp only [aset, if_neg hp, List.map_cons, List.mem_cons, ih]
        tauto

theorem keys_aset_nodup {α β : Type} [DecidableEq α] (k : α) (v : β)
    {l : List (α × β)} (h : (l.map Prod.fst).Nodup) :
    ((aset k v l).map Prod.fst).Nodup := by
  induction l with
  | nil => simp [aset]
  | cons p l ih =>
      obtain ⟨a, b⟩ := p
      simp only [List.map_cons, List.nodup_cons] at h
      by_cases hp : a = k
      · simp only [aset, if_pos hp, List.map_cons, List.nodup_cons]
        subst hp
        exact ⟨h.1, h.2⟩
      · simp only [aset, if_neg hp, List.map_cons, List.nodup_cons]
        refine ⟨fun hm => ?_, ih h.2⟩
        rcases mem_keys_aset.mp hm with h1 | h1
        · exact hp h1
        · exact h.1 h1

theorem mem_aset {α β : Type} [DecidableEq α] {k : α} {v : β} {p : α × β}
    {l : List (α × β)} (h : p ∈ aset k v l) : p = (k, v) ∨ p ∈ l := by
  induction l with
  | nil => simpa [aset] using h
  | cons q l ih =>
      by_cases hq : q.1 = k
      · simp only [aset, if_pos hq, List.mem_cons] at h
        tauto
      · simp only [aset, if_neg hq, List.mem_cons] at h
        rcases h with h | h
        · exact Or.inr (List.mem_cons.mpr (Or.inl h))
        · rcases ih h with h1 | h1
          · exact Or.inl h1
          · exact Or.inr (List.mem_cons_of_mem q h1)

/-! ## The removal loop (for C4) -/

theorem lookupSet_eq_of_alookup {w : Text} {kws : List (Text × List Nat)}
    {s : List Nat} (h : alookup w kws = some s) : lookupSet w kws = s := by
  rw [lookupSet, h]
  rfl

theorem removeLoop_spec (tag : Nat) (ws : List Text) :
    ∀ kws : List (Text × List Nat),
      (kws.map Prod.fst).Nodup →
      (∀ kw ∈ kws, kw.2.Nodup) →
      ws.Nodup →
      (∀ w ∈ ws, tag ∈ lookupSet w kws) →
      (removeLoop tag ws kws).1 = true ∧
      (∀ w ∈ ws, alookup w (removeLoop tag ws kws).2 =
        (if (lookupSet w kws).erase tag = [] then none
         else some ((lookupSet w kws).erase tag))) ∧
      (∀ w, w ∉ ws → alookup w (removeLoop tag ws kws).2 = alookup w kws) ∧
      ((removeLoop tag ws kws).2.map Prod.fst).Nodup ∧
      (∀ kw ∈ (removeLoop tag ws kws).2, kw.2.Nodup) := by
  induction ws with
  | nil =>
      intro kws hkeys hsets _ _
      exact ⟨rfl, by simp, fun w _ => rfl, hkeys, hsets⟩
  | cons w ws ih =>
      intro kws hkeys hsets hnd hmem
      have hw : tag ∈ lookupSet w kws := hmem w (List.mem_cons_self w ws)
      obtain ⟨s, hs⟩ : ∃ s, alookup w kws = some s := by
        cases h : alookup w kws with
        | none => rw [lookupSet, h] at hw; simp at hw
        | some s => exact ⟨s, rfl⟩
      have hwS : lookupSet w kws = s := lookupSet_eq_of_alookup hs
      rw [hwS] at hw
      have hsnd : s.Nodup := hsets (w, s) (mem_of_alookup_eq_some hs)
      have hndw : w ∉ ws := (List.nodup_cons.mp hnd).1
      have hnds : ws.Nodup := (List.nodup_cons.mp hnd).2
      by_cases he : s.erase tag = []
      · -- the set empties: the key is deleted and the loop recurses
        have hstep : removeLoop tag (w :: ws) kws = removeLoop tag ws (aerase w kws) := by
          simp only [removeLoop, hs]
          rw [if_pos hw, if_pos he]
        have hkeys' := keys_aerase_nodup w hkeys
        have hsets' : ∀ kw ∈ aerase w kws, kw.2.Nodup :=
          fun kw hm => hsets kw ((aerase_sublist w kws).subset hm)
        have hmem' : ∀ v ∈ ws, tag ∈ lookupSet v (aerase w kws) := by
          intro v hv
          have hvw : v ≠ w := fun hvw => hndw (hvw ▸ hv)
          rw [lookupSet, alookup_aerase_ne kws hvw]
          exact hmem v (List.mem_cons_of_mem w hv)
        obtain ⟨i1, i2, i3, i4, i5⟩ := ih (aerase w kws) hkeys' hsets' hnds hmem'
        rw [hstep]
        refine ⟨i1, ?_, ?_, i4, i5⟩
        · intro v hv
          rcases List.mem_cons.mp hv with hv | hv
          · subst hv
            rw [i3 v hndw, alookup_aerase_self hkeys, hwS, if_pos he]
          · have hvw : v ≠ w := fun hvw => hndw (hvw ▸ hv)
            rw [i2 v hv, lookupSet, alookup_aerase_ne kws hvw]
            rfl
        · intro v hv
          have hvw : v ≠ w := fun hvw => hv (hvw ▸ List.mem_cons_self w ws)
          have hvws : v ∉ ws := fun hm => hv (List.mem_cons_of_mem w hm)
          rw [i3 v hvws, alookup_aerase_ne kws hvw]
      · -- the set stays non-empty: it is overwritten and the loop recurses
        have hstep : removeLoop tag (w :: ws) kws =
            removeLoop tag ws (aset w (s.erase tag) kws) := by
          simp only [removeLoop, hs]
          rw [if_pos hw, if_neg he]
        have hkeys' := keys_aset_nodup w (s.erase tag) hkeys
        have hsets' : ∀ kw ∈ aset w (s.erase tag) kws, kw.2.Nodup := by
          intro kw hm
          rcases mem_aset hm with h1 | h1
          · rw [h1]
            exact hsnd.erase tag
          · exact hsets kw h1
        have hmem' : ∀ v ∈ ws, tag ∈ lookupSet v (aset w (s.erase tag) kws) := by
          intro v hv
          have hvw : v ≠ w := fun hvw => hndw (hvw ▸ hv)
          rw [lookupSet, alookup_aset_ne (s.erase tag) kws hvw]
          exact hmem v (List.mem_cons_of_mem w hv)
        obtain ⟨i1, i2, i3, i4, i5⟩ := ih (aset w (s.erase tag) kws) hkeys' hsets' hnds hmem'
        rw [hstep]
        refine ⟨i1, ?_, ?_, i4, i5⟩
        · intro v hv
          rcases List.mem_cons.mp hv with hv | hv
          · subst hv
            rw [i3 v hndw, alookup_aset_self, hwS, if_neg he]
          · have hvw : v ≠ w := fun hvw => hndw (hvw ▸ hv)
            rw [i2 v hv, lookupSet, alookup_aset_ne (s.erase tag) kws hvw]
            rfl
        · intro v hv
          have hvw : v ≠ w := fun hvw => hv (hvw ▸ List.mem_cons_self w ws)
          have hvws : v ∉ ws := fun hm => hv (List.mem_cons_of_mem w hm)
          rw [i3 v hvws, alookup_aset_ne (s.erase tag) kws hvw]

/-! ## The search loop (for C1) -/

theorem searchLoop_some_mem (e : Engine) (t : Nat) (ws : List Text) :
    ∀ acc : List Nat,
      (t ∈ (searchLoop e ws (some acc)).getD [] ↔
        t ∈ acc ∧ ∀ w ∈ ws, ∀ s, alookup w e.keywords = some s → t ∈ s) := by
  induction ws with
  | nil =>
      intro acc
      simp [searchLoop]
  | cons w ws ih =>
      intro acc
      cases hk : alookup w e.keywords with
      | none =>
          simp only [searchLoop, hk]
          rw [ih acc]
          constructor
          · rintro ⟨ha, hrest⟩
            refine ⟨ha, ?_⟩
            intro v hv s hvs
            rcases List.mem_cons.mp hv with hv | hv
            · subst hv
              rw [hk] at hvs
              cases hvs
            · exact hrest v hv s hvs
          · rintro ⟨ha, hrest⟩
            exact ⟨ha, fun v hv s hvs => hrest v (List.mem_cons_of_mem w hv) s hvs⟩
      | some s =>
          simp only [searchLoop, hk]
          rw [ih (acc.filter (fun x => x ∈ s))]
          simp only [List.mem_filter, decide_eq_true_eq]
          constructor
          · rintro ⟨⟨ha, hts⟩, hrest⟩
            refine ⟨ha, ?_⟩
            intro v hv s' hvs
            rcases List.mem_cons.mp hv with hv | hv
            · subst hv
              rw [hk] at hvs
              cases hvs
              exact hts
            · exact hrest v hv s' hvs
          · rintro ⟨ha, hrest⟩
            exact ⟨⟨ha, hrest w (List.mem_cons_self w ws) s hk⟩,
              fun v hv s' hvs => hrest v (List.mem_cons_of_mem w hv) s' hvs⟩

theorem searchLoop_none_mem (e : Engine) (t : Nat) (ws : List Text) :
    t ∈ (searchLoop e ws none).getD [] ↔
      (∃ w ∈ ws, (alookup w e.keywords).isSome = true) ∧
      (∀ w ∈ ws, ∀ s, alookup w e.keywords = some s → t ∈ s) := by
  induction ws with
  | nil => simp [searchLoop]
  | cons w ws ih =>
      cases hk : alookup w e.keywords with
      | none =>
          simp only [searchLoop, hk]
          rw [ih]
          constructor
          · rintro ⟨⟨v, hv, hvs⟩, hrest⟩
            refine ⟨⟨v, List.mem_cons_of_mem w hv, hvs⟩, ?_⟩
            intro v' hv' s hvs'
            rcases List.mem_cons.mp hv' with hv' | hv'
            · subst hv'
              rw [hk] at hvs'
              cases hvs'
            · exact hrest v' hv' s hvs'
          · rintro ⟨⟨v, hv, hvs⟩, hrest⟩
            rcases List.mem_cons.mp hv with hv | hv
            · subst hv
              rw [hk] at hvs
              cases hvs
            · exact ⟨⟨v, hv, hvs⟩,
                fun v' hv' s hvs' => hrest v' (List.mem_cons_of_mem w hv') s hvs'⟩
      | some s =>
          simp only [searchLoop, hk]
          rw [searchLoop_some_mem e t ws s]
          constructor
          · rintro ⟨hts, hrest⟩
            refine ⟨⟨w, List.mem_cons_self w ws, by rw [hk]; rfl⟩, ?_⟩
            intro v hv s' hvs
            rcases List.mem_cons.mp hv with hv | hv
            · subst hv
              rw [hk] at hvs
              cases hvs
              exact hts
            · exact hrest v hv s' hvs
          · rintro ⟨_, hrest⟩
            exact ⟨hrest w (List.mem_cons_self w ws) s hk,
              fun v hv s' hvs => hrest v (List.mem_cons_of_mem w hv) s' hvs⟩

/-! ## Normalization lemmas (for C8) -/

theorem foldl_alts_eq_map (t : Text) :
    alts.foldl (fun acc kv => replaceChar kv.1 kv.2 acc) t = t.map foldChar := by
  simp only [alts, List.foldl_cons, List.foldl_nil, replaceChar, List.map_map]
  have h : ∀ c : Char,
      ((fun c => if c = 'ئ' then 'ی' else c) ∘ (fun c => if c = 'إ' then 'ا' else c) ∘
       (fun c => if c = 'أ' then 'ا' else c) ∘ (fun c => if c = 'ة' then 'ه' else c) ∘
       (fun c => if c = 'ك' then 'ک' else c) ∘ (fun c => if c = 'ي' then 'ی' else c)) c =
      foldChar c := by
    intro c
    by_cases h1 : c = 'ي'
    · subst h1; decide
    by_cases h2 : c = 'ك'
    · subst h2; decide
    by_cases h3 : c = 'ة'
    · subst h3; decide
    by_cases h4 : c = 'أ'
    · subst h4; decide
    by_cases h5 : c = 'إ'
    · subst h5; decide
    by_cases h6 : c = 'ئ'
    · subst h6; decide
    simp [foldChar, h1, h2, h3, h4, h5, h6]
  rw [funext h]

theorem foldChar_idem (c : Char) : foldChar (foldChar c) = foldChar c := by
  by_cases h1 : c = 'ي'
  · subst h1; decide
  by_cases h2 : c = 'ك'
  · subst h2; decide
  by_cases h3 : c = 'ة'
  · subst h3; decide
  by_cases h4 : c = 'أ'
  · subst h4; decide
  by_cases h5 : c = 'إ'
  · subst h5; decide
  by_cases h6 : c = 'ئ'
  · subst h6; decide
  simp [foldChar, h1, h2, h3, h4, h5, h6]

theorem foldChar_isWhitespace (c : Char) :
    (foldChar c).isWhitespace = c.isWhitespace := by
  by_cases h1 : c = 'ي'
  · subst h1; decide
  by_cases h2 : c = 'ك'
  · subst h2; decide
  by_cases h3 : c = 'ة'
  · subst h3; decide
  by_cases h4 : c = 'أ'
  · subst h4; decide
  by_cases h5 : c = 'إ'
  · subst h5; decide
  by_cases h6 : c = 'ئ'
  · subst h6; decide
  simp [foldChar, h1, h2, h3, h4, h5, h6]

theorem dropWhile_idem {α : Type} (p : α → Bool) (l : List α) :
    (l.dropWhile p).dropWhile p = l.dropWhile p := by
  induction l with
  | nil => rfl
  | cons a l ih =>
      by_cases h : p a = true
      · simp [List.dropWhile_cons, h, ih]
      · simp [List.dropWhile_cons, h]

theorem dropWhile_head?_not {α : Type} {p : α → Bool} {l : List α} {a : α}
    (h : (l.dropWhile p).head? = some a) : p a = false := by
  induction l with
  | nil => simp [List.dropWhile] at h
  | cons b l ih =>
      by_cases hb : p b = true
      · rw [List.dropWhile_cons, if_pos hb] at h
        exact ih h
      · rw [List.dropWhile_cons, if_neg hb] at h
        simp only [List.head?_cons, Option.some.injEq] at h
        subst h
        exact Bool.eq_false_iff.mpr hb

theorem pystrip_map_comm (f : Char → Char)
    (hf : ∀ c, (f c).isWhitespace = c.isWhitespace) (t : Text) :
    pystrip (t.map f) = (pystrip t).map f := by
  have hcomp : (Char.isWhitespace ∘ f) = Char.isWhitespace := funext hf
  unfold pystrip
  rw [List.dropWhile_map, hcomp, ← List.map_reverse, List.dropWhile_map, hcomp,
    ← List.map_reverse]

theorem dropWhile_reverse_dropWhile {p : Char → Bool} (t : Text) :
    ((t.dropWhile p).reverse.dropWhile p).reverse.dropWhile p =
    ((t.dropWhile p).reverse.dropWhile p).reverse := by
  rcases hM : ((t.dropWhile p).reverse.dropWhile p).reverse with _ | ⟨a, s⟩
  · rfl
  · have hM' : ((t.dropWhile p).reverse.dropWhile p) ≠ [] := by
      intro h
      rw [h] at hM
      exact List.cons_ne_nil a s hM.symm
    have hlast : ((t.dropWhile p).reverse.dropWhile p).getLast? = some a := by
      rw [← List.head?_reverse, hM, List.head?_cons]
    obtain ⟨u, hu⟩ := List.dropWhile_suffix (l := (t.dropWhile p).reverse) p
    have hlast2 : (t.dropWhile p).reverse.getLast? = some a := by
      rw [← hu, List.getLast?_append_of_ne_nil u hM', hlast]
    have hhead : (t.dropWhile p).head? = some a := by
      rw [← List.getLast?_reverse, hlast2]
    have hpa : p a = false := dropWhile_head?_not hhead
    rw [List.dropWhile_cons, if_neg (by simp [hpa])]

theorem pystrip_idem (t : Text) : pystrip (pystrip t) = pystrip t := by
  have h1 : (pystrip t).dropWhile Char.isWhitespace = pystrip t :=
    dropWhile_reverse_dropWhile t
  show (((pystrip t).dropWhile Char.isWhitespace).reverse.dropWhile
      Char.isWhitespace).reverse = pystrip t
  rw [h1]
  show (((((t.dropWhile Char.isWhitespace).reverse.dropWhile
      Char.isWhitespace).reverse).reverse).dropWhile Char.isWhitespace).reverse = pystrip t
  rw [List.reverse_reverse, dropWhile_idem]
  rfl

/-! ## Claim theorems -/

/-- C8: normalization (`__clean_text`) is idempotent for every string, and
it equals replacing every occurrence of ي, ك, ة, أ, إ, ئ by ی, ک, ه, ا, ا,
ی respectively (the combined fold table `foldChar`) and then trimming
leading and trailing whitespace. -/
theorem C8_normalize_idempotent (t : Text) :
    clean_text (clean_text t) = clean_text t ∧
    clean_text t = pystrip (t.map foldChar) := by
  have h2 : ∀ u : Text, clean_text u = pystrip (u.map foldChar) := by
    intro u
    rw [clean_text, foldl_alts_eq_map]
  have hcc : foldChar ∘ foldChar = foldChar := funext foldChar_idem
  refine ⟨?_, h2 t⟩
  rw [h2 t, h2 (pystrip (t.map foldChar)),
    pystrip_map_comm foldChar foldChar_isWhitespace, pystrip_idem,
    ← pystrip_map_comm foldChar foldChar_isWhitespace, List.map_map, hcc]

/-- C5: on an identity absent from the id-to-Record mapping, `update_record`,
`remove_record`, `increase_likes` (increase_score) and `decrease_likes`
(decrease_score) all raise the NotFound error (`KeyError`, modelled by the
`none` result), propagating it to the caller with the engine state left
entirely unchanged. -/
theorem C5_notfound_propagates (e : Engine) (id : Int)
    (h : alookup id e.subs = none) :
    (∀ st ty lk, update_record id st ty lk e = (none, e)) ∧
    remove_record id e = (none, e) ∧
    increase_likes id e = (none, e) ∧
    decrease_likes id e = (none, e) := by
  refine ⟨fun st ty lk => ?_, ?_, ?_, ?_⟩ <;>
    simp [update_record, remove_record, increase_likes, decrease_likes, h]

/-- Witness for C5 at the empty engine and identity 7. -/
theorem C5_witness :
    update_record 7 none none (-1) emptyEngine = (none, emptyEngine) ∧
    remove_record 7 emptyEngine = (none, emptyEngine) ∧
    increase_likes 7 emptyEngine = (none, emptyEngine) ∧
    decrease_likes 7 emptyEngine = (none, emptyEngine) :=
  ⟨(C5_notfound_propagates emptyEngine 7 rfl).1 none none (-1),
   (C5_notfound_propagates emptyEngine 7 rfl).2.1,
   (C5_notfound_propagates emptyEngine 7 rfl).2.2.1,
   (C5_notfound_propagates emptyEngine 7 rfl).2.2.2⟩

/-- C6: a query that normalizes and tokenizes to zero tokens makes `search`
return the empty sequence on every engine state (never the set of all
records). -/
theorem C6_zero_token_query (e : Engine) (q : Text)
    (h : pysplit (clean_text q) = []) :
    search q e = [] ∧ searchIds q e = [] := by
  have ht : searchTags q e = [] := by
    simp [searchTags, h, searchLoop]
  constructor
  · simp [search, ht]
  · simp [searchIds, search, ht]

/-- Witness for C6: a whitespace-only query on the non-empty engine `egA`
returns the empty sequence, not all records. -/
theorem C6_witness :
    search [' '] egA = [] ∧ searchIds [' '] egA = [] :=
  C6_zero_token_query egA [' '] (by decide)

/-- C7: with the identity present, `increase_likes` / `decrease_likes`
replace exactly the stored record's `likes` field by `likes + 1` /
`likes - 1` in place (no floor or ceiling), keeping `subs`, `keywords`,
`nextTag` and every other heap object unchanged. -/
theorem C7_score_adjust (e : Engine) (id : Int) (tag : Nat) (r : Record)
    (hs : alookup id e.subs = some tag) (hh : alookup tag e.heap = some r) :
    increase_likes id e =
      (some (), { e with heap := aset tag { r with likes := r.likes + 1 } e.heap }) ∧
    decrease_likes id e =
      (some (), { e with heap := aset tag { r with likes := r.likes - 1 } e.heap }) ∧
    (∀ t', t' ≠ tag →
      alookup t' (aset tag { r with likes := r.likes + 1 } e.heap) = alookup t' e.heap ∧
      alookup t' (aset tag { r with likes := r.likes - 1 } e.heap) = alookup t' e.heap) := by
  refine ⟨?_, ?_, fun t' ht' => ⟨alookup_aset_ne _ _ ht', alookup_aset_ne _ _ ht'⟩⟩ <;>
    simp [increase_likes, decrease_likes, hs, hh]

/-- Witness for C7 on `egA`: the like counter moves to 1 and to -1 (below
zero, no floor), other tags unaffected. -/
theorem C7_witness :
    increase_likes 1 egA =
      (some (), { egA with heap := aset 0 { recA with likes := recA.likes + 1 } egA.heap }) ∧
    decrease_likes 1 egA =
      (some (), { egA with heap := aset 0 { recA with likes := recA.likes - 1 } egA.heap }) ∧
    alookup 5 (aset 0 { recA with likes := recA.likes + 1 } egA.heap) = alookup 5 egA.heap :=
  ⟨(C7_score_adjust egA 1 0 recA rfl rfl).1,
   (C7_score_adjust egA 1 0 recA rfl rfl).2.1,
   ((C7_score_adjust egA 1 0 recA rfl rfl).2.2 5 (by decide)).1⟩

/-- C10: `update_user_permission` and `update_user_step` on an id that is
not registered in the cache are silent no-ops: the cache is returned
entirely unchanged and no error is raised (total functions), in contrast
with the engine's strict NotFound behavior (C5). -/
theorem C10_cache_unknown_noop (c : UserCache) (id : Int)
    (h : alookup id c.users = none) :
    (∀ p, update_user_permission id p c = c) ∧
    (∀ st, update_user_step id st c = c) := by
  constructor <;> intro x <;> simp [update_user_permission, update_user_step, h]

/-- Witness for C10 at the empty cache and id 3. -/
theorem C10_witness :
    update_user_permission 3 (PermVal.num 2) emptyCache = emptyCache ∧
    update_user_step 3 "x".toList emptyCache = emptyCache :=
  ⟨(C10_cache_unknown_noop emptyCache 3 rfl).1 (PermVal.num 2),
   (C10_cache_unknown_noop emptyCache 3 rfl).2 "x".toList⟩

/-- C9 (amended): `has_permission` returns false when the id is unknown,
whatever the bounds; on a registered id whose stored permission is an
integer `p` it returns true exactly when `min <= p <= max`, both bounds
inclusive.  Hence the default bounds (1, 3) admit exactly the registered
users whose stored permission lies between 1 and 3 — every user added with
a recognized level name, but not, e.g., one added with the raw ordinal 0
(see the counterexample). -/
theorem C9_has_permission_bounds (c : UserCache) (id minp maxp : Int) :
    (alookup id c.users = none →
      UserCache.has_permission id minp maxp c = some false) ∧
    (∀ u : UserRecord, ∀ p : Int, alookup id c.users = some u →
      u.permission = PermVal.num p →
      (UserCache.has_permission id minp maxp c = some true ↔ minp ≤ p ∧ p ≤ maxp)) := by
  constructor
  · intro h
    simp [UserCache.has_permission, h]
  · intro u p hu hp
    simp [UserCache.has_permission, hu, UserRecord.has_permission, hp]

/-- Counterexample for C9 as stated: `add_user(10, 0, "")` leaves user 10
registered, yet the default bounds reject it, so the default bounds do not
admit every registered user. -/
theorem C9_counterexample :
    (alookup 10 cacheZero.users).isSome = true ∧
    UserCache.has_permission 10 1 3 cacheZero = some false := by
  decide

/-- Witness for C9 (amended) on `cacheEd` (user 10 added as "Editor"):
an unknown id is rejected, and the registered editor is admitted by the
default bounds since its stored ordinal 2 lies between 1 and 3. -/
theorem C9_witness :
    UserCache.has_permission 9 1 3 cacheEd = some false ∧
    (UserCache.has_permission 10 1 3 cacheEd = some true ↔ (1 : Int) ≤ 2 ∧ (2 : Int) ≤ 3) :=
  ⟨(C9_has_permission_bounds cacheEd 9 1 3).1 rfl,
   (C9_has_permission_bounds cacheEd 10 1 3).2 edRec 2 rfl rfl⟩

/-- C2 (code bug): after `index_record(1, "a", "t", 0)` and
`index_record(1, "b", "t", 0)`, identity 1 is still reachable from the
keyword index under token "a" although "a" is not a token of the current
record's search text "b" — `index_record` does not retract the prior
record's token memberships, so the claimed invariant fails and the engine
state is inconsistent. -/
theorem C2_index_desync :
    idUnderToken e2bug "a".toList 1 = true ∧
    alookup 1 e2bug.subs = some 1 ∧
    alookup 1 e2bug.heap = some ⟨1, "b".toList, "t".toList, 0⟩ ∧
    memToken "a".toList "b".toList = false ∧
    decide (Consistent e2bug) = false := by
  decide

/-- Counterexample for C1 as stated: on `egA` the query token "z" is absent
from the keyword index, yet `search "a z"` returns identity 1 instead of
the claimed empty sequence — the loop skips unindexed tokens rather than
intersecting with the empty set. -/
theorem C1_counterexample :
    alookup "z".toList egA.keywords = none ∧
    searchIds "a z".toList egA = [1] := by
  decide

/-- C1 (amended): on a consistent engine state, `search(q)` returns exactly
the identities of the records whose normalized search text contains every
normalized token of `q` that is present as a key of the keyword index —
query tokens absent from the index are skipped by the loop, not intersected
as empty sets — provided at least one query token is present in the index;
when no query token is an index key (in particular for a zero-token query)
the result is empty. -/
theorem C1_search_membership (e : Engine) (hC : Consistent e) (q : Text) (i : Int) :
    i ∈ searchIds q e ↔
      ((∃ w ∈ pysplit (clean_text q), (alookup w e.keywords).isSome = true) ∧
       ∃ tag : Nat, ∃ r : Record, alookup i e.subs = some tag ∧
         alookup tag e.heap = some r ∧
         ∀ w ∈ pysplit (clean_text q), (alookup w e.keywords).isSome = true →
           w ∈ pysplit r.search_text) := by
  obtain ⟨h1, h2, h3, h4, h5, h6, h7, h8, h9⟩ := hC
  constructor
  · intro hi
    obtain ⟨rec, hrec, hrid⟩ := List.mem_map.mp hi
    obtain ⟨t, ht, hth⟩ := List.mem_filterMap.mp hrec
    rw [searchTags] at ht
    obtain ⟨⟨w0, hw0, hw0s⟩, hall⟩ := (searchLoop_none_mem e t (pysplit (clean_text q))).mp ht
    obtain ⟨s0, hs0⟩ := Option.isSome_iff_exists.mp hw0s
    have hts0 : t ∈ s0 := hall w0 hw0 s0 hs0
    obtain ⟨p, hp, hpt⟩ := h7 (w0, s0) (mem_of_alookup_eq_some hs0) t hts0
    have h5p := h5 p hp
    rw [hpt, hth] at h5p
    simp only [Option.map_some'] at h5p
    injection h5p with h5p
    have hpe : p = (i, t) := by
      rw [← Prod.mk.eta (p := p), hpt, ← h5p, hrid]
    refine ⟨⟨w0, hw0, hw0s⟩, t, rec, ?_, hth, ?_⟩
    · exact alookup_eq_some_of_mem h1 (hpe ▸ hp)
    · intro w hw hws
      obtain ⟨s, hsw⟩ := Option.isSome_iff_exists.mp hws
      have hts : t ∈ s := hall w hw s hsw
      have := h9 (w, s) (mem_of_alookup_eq_some hsw) t hts
      rw [tagTokens, hth] at this
      exact this
  · rintro ⟨⟨w0, hw0, hw0s⟩, tag, r, hsi, hhr, hallw⟩
    have htag : tag ∈ searchTags q e := by
      rw [searchTags]
      refine (searchLoop_none_mem e tag (pysplit (clean_text q))).mpr
        ⟨⟨w0, hw0, hw0s⟩, ?_⟩
      intro w hw s hws
      have hwtok : w ∈ pysplit r.search_text := hallw w hw (by rw [hws]; rfl)
      have := h8 (i, tag) (mem_of_alookup_eq_some hsi) w
        (by rw [tagTokens, hhr]; exact hwtok)
      rw [lookupSet, hws] at this
      exact this
    have hrid : r.id = i := by
      have h5p := h5 (i, tag) (mem_of_alookup_eq_some hsi)
      rw [hhr] at h5p
      simp only [Option.map_some'] at h5p
      injection h5p
    exact List.mem_map.mpr ⟨r, List.mem_filterMap.mpr ⟨tag, htag, hhr⟩, hrid⟩

/-- Witness for C1 (amended): searching "a" on the consistent engine `egA`
returns identity 1, whose record's text contains the indexed query token. -/
theorem C1_witness : 1 ∈ searchIds "a".toList egA :=
  (C1_search_membership egA (by decide) "a".toList 1).mpr
    ⟨⟨"a".toList, by decide, by decide⟩, 0, recA, rfl, rfl, by decide⟩

/-- C3: `update_record` on a present id behaves exactly as
`remove_record(id)` followed by `index_record` on the merged fields — each
provided field overlaid on the retained old value (`-1` meaning "likes not
provided") — and fails with the propagated NotFound on an absent id.  The
hypothesis `r.id = id` holds for every record the engine itself stores,
since `index_record` builds the record from its id argument. -/
theorem C3_update_refines (e : Engine) (id : Int) (st ty : Option Text) (lk : Int) :
    (∀ r : Record, ∀ e' : Engine, remove_record id e = (some r, e') → r.id = id →
      update_record id st ty lk e =
        (some (), index_record id (st.getD r.search_text) (ty.getD r.type)
          (if lk = -1 then r.likes else lk) e')) ∧
    (alookup id e.subs = none → update_record id st ty lk e = (none, e)) := by
  constructor
  · intro r e' hrem hid
    subst hid
    simp only [update_record, hrem]
    cases st <;> cases ty <;> rfl
  · intro h
    simp [update_record, remove_record, h]

/-- Witness for C3: updating record 1 of `egA` with no provided fields is
remove-then-reindex of the old fields; updating an absent id 9 fails
unchanged. -/
theorem C3_witness :
    update_record 1 none none (-1) egA =
      (some (), index_record 1 recA.search_text recA.type recA.likes egARemoved) ∧
    update_record 9 none none (-1) emptyEngine = (none, emptyEngine) :=
  ⟨(C3_update_refines egA 1 none none (-1)).1 recA egARemoved rfl rfl,
   (C3_update_refines emptyEngine 9 none none (-1)).2 rfl⟩

/-- C4 (amended): in a consistent engine state, when identity `id` is
present with record `r` whose search text has no repeated token,
`remove_record id` returns `r`, deletes the id entry, removes the identity
from the token set of every token of the pre-removal search text (leaving
every other key untouched and the heap unchanged), deletes every token key
whose set thereby becomes empty — in particular every token whose set was
exactly this record — and afterwards no token set reaches identity `id` and
every remaining token set is non-empty. -/
theorem C4_remove_record (e : Engine) (id : Int) (tag : Nat) (r : Record)
    (hC : Consistent e)
    (hs : alookup id e.subs = some tag)
    (hh : alookup tag e.heap = some r)
    (hnd : (pysplit r.search_text).Nodup) :
    (remove_record id e).1 = some r ∧
    (remove_record id e).2.subs = aerase id e.subs ∧
    alookup id (remove_record id e).2.subs = none ∧
    (remove_record id e).2.heap = e.heap ∧
    (∀ w ∈ pysplit r.search_text,
      alookup w (remove_record id e).2.keywords =
        (if (lookupSet w e.keywords).erase tag = [] then none
         else some ((lookupSet w e.keywords).erase tag))) ∧
    (∀ w, w ∉ pysplit r.search_text →
      alookup w (remove_record id e).2.keywords = alookup w e.keywords) ∧
    (∀ w ∈ pysplit r.search_text, alookup w e.keywords = some [tag] →
      alookup w (remove_record id e).2.keywords = none) ∧
    noTokenHasId (remove_record id e).2 id = true ∧
    (∀ kw ∈ (remove_record id e).2.keywords, kw.2 ≠ []) := by
  obtain ⟨h1, h2, h3, h4, h5, h6, h7, h8, h9⟩ := hC
  have hmemsub : (id, tag) ∈ e.subs := mem_of_alookup_eq_some hs
  have htt : tagTokens e tag = pysplit r.search_text := by
    simp [tagTokens, hh]
  have hmem : ∀ w ∈ pysplit r.search_text, tag ∈ lookupSet w e.keywords := by
    intro w hw
    exact h8 (id, tag) hmemsub w (htt ▸ hw)
  have hsets : ∀ kw ∈ e.keywords, kw.2.Nodup := fun kw hk => (h6 kw hk).2
  obtain ⟨s1, s2, s3, s4, s5⟩ :=
    removeLoop_spec tag (pysplit r.search_text) e.keywords h3 hsets hnd hmem
  rcases hloop : removeLoop tag (pysplit r.search_text) e.keywords with ⟨ok, kws'⟩
  rw [hloop] at s1 s2 s3 s4 s5
  have hok : ok = true := s1
  subst hok
  have hrem : remove_record id e =
      (some r, ⟨e.nextTag, e.heap, aerase id e.subs, kws'⟩) := by
    simp only [remove_record, hs, hh, hloop]
  -- identity uniqueness: no tag other than `tag` reaches a record with this id
  have huniq : ∀ t : Nat, t ≠ tag → (∃ p ∈ e.subs, p.2 = t) →
      ¬ ((alookup t e.heap).map Record.id = some id) := by
    rintro t htne ⟨p, hp, hpt⟩ hcontra
    have h5p := h5 p hp
    rw [hpt, hcontra] at h5p
    injection h5p with hpid
    have hpe : p = (id, t) := by
      rw [← Prod.mk.eta (p := p), hpt, ← hpid]
    have e1 := alookup_eq_some_of_mem h1 (hpe ▸ hp)
    rw [hs] at e1
    injection e1 with e1
    exact htne e1.symm
  rw [hrem]
  refine ⟨rfl, rfl, alookup_aerase_self h1, rfl, s2, s3, ?_, ?_, ?_⟩
  · -- a token set that was exactly this record is deleted
    intro w hw hkey
    have hS : lookupSet w e.keywords = [tag] := lookupSet_eq_of_alookup hkey
    rw [s2 w hw, hS, if_pos (by simp)]
  · -- no remaining token set reaches the identity
    rw [noTokenHasId, List.all_eq_true]
    intro kw hkw
    rw [List.all_eq_true]
    intro t ht
    have hkwlook : alookup kw.1 kws' = some kw.2 := alookup_eq_some_of_mem s4 hkw
    by_cases hwtok : kw.1 ∈ pysplit r.search_text
    · have hif := s2 kw.1 hwtok
      rw [hkwlook] at hif
      by_cases hem : (lookupSet kw.1 e.keywords).erase tag = []
      · rw [if_pos hem] at hif
        exact absurd hif (by simp)
      · rw [if_neg hem] at hif
        injection hif with hif
        obtain ⟨s0, hs0⟩ : ∃ s0, alookup kw.1 e.keywords = some s0 := by
          have := hmem kw.1 hwtok
          cases hkk : alookup kw.1 e.keywords with
          | none => rw [lookupSet, hkk] at this; simp at this
          | some s0 => exact ⟨s0, rfl⟩
        have hS0 : lookupSet kw.1 e.keywords = s0 := lookupSet_eq_of_alookup hs0
        have hpre : (kw.1, s0) ∈ e.keywords := mem_of_alookup_eq_some hs0
        have hSnd : s0.Nodup := (h6 (kw.1, s0) hpre).2
        have ht' : t ∈ s0.erase tag := by
          rw [← hS0]
          exact hif ▸ ht
        obtain ⟨htne, htS⟩ := hSnd.mem_erase_iff.mp ht'
        have hlive : ∃ p ∈ e.subs, p.2 = t := h7 (kw.1, s0) hpre t htS
        simpa using huniq t htne hlive
    · have hpre' := s3 kw.1 hwtok
      rw [hkwlook] at hpre'
      have hpre : (kw.1, kw.2) ∈ e.keywords := mem_of_alookup_eq_some hpre'.symm
      have htne : t ≠ tag := by
        intro hteq
        subst hteq
        exact hwtok (htt ▸ h9 (kw.1, kw.2) hpre t ht)
      have hlive : ∃ p ∈ e.subs, p.2 = t := h7 (kw.1, kw.2) hpre t ht
      simpa using huniq t htne hlive
  · -- every remaining token set is non-empty
    intro kw hkw
    have hkwlook : alookup kw.1 kws' = some kw.2 := alookup_eq_some_of_mem s4 hkw
    by_cases hwtok : kw.1 ∈ pysplit r.search_text
    · have hif := s2 kw.1 hwtok
      rw [hkwlook] at hif
      by_cases hem : (lookupSet kw.1 e.keywords).erase tag = []
      · rw [if_pos hem] at hif
        exact absurd hif (by simp)
      · rw [if_neg hem] at hif
        injection hif with hif
        rw [hif]
        exact hem
    · have hpre' := s3 kw.1 hwtok
      rw [hkwlook] at hpre'
      exact (h6 (kw.1, kw.2) (mem_of_alookup_eq_some hpre'.symm)).1

/-- Witness for C4 (amended) on the consistent one-record engine `egA`:
removing identity 1 returns its record, empties `subs`, leaves no token
reaching identity 1, and deletes the token "a" (whose set was exactly this
record). -/
theorem C4_witness :
    (remove_record 1 egA).1 = some recA ∧
    alookup 1 (remove_record 1 egA).2.subs = none ∧
    alookup "a".toList (remove_record 1 egA).2.keywords = none ∧
    noTokenHasId (remove_record 1 egA).2 1 = true :=
  ⟨(C4_remove_record egA 1 0 recA (by decide) rfl rfl (by decide)).1,
   (C4_remove_record egA 1 0 recA (by decide) rfl rfl (by decide)).2.2.1,
   (C4_remove_record egA 1 0 recA (by decide) rfl rfl (by decide)).2.2.2.2.2.2.1
     "a".toList (by decide) rfl,
   (C4_remove_record egA 1 0 recA (by decide) rfl rfl (by decide)).2.2.2.2.2.2.2.1⟩

/-- Counterexample for C4 as stated: in `e4crash` identity 1 is present,
but `remove_record 1` raises (`set.remove` KeyError on the second
occurrence of the duplicated token "a", whose set still holds record 2)
instead of returning the removed record, and it leaves identity 1 behind
in the token set of "b". -/
theorem C4_counterexample :
    (alookup 1 e4crash.subs).isSome = true ∧
    (remove_record 1 e4crash).1 = none ∧
    idUnderToken (remove_record 1 e4crash).2 "b".toList 1 = true := by
  decide

end Uniland
